import Mathlib

/-!
Verification of the image-archive import engine (`image/tarexport/load.go`).

The Go source is shallowly embedded below:
  * pure helpers (`checkValidParent`, `validatedParentLinks`, `validateManifest`)
    are translated directly;
  * the stateful `Load` pipeline is translated into explicit state passing over
    a `LoadState` (layer store, image store, reference store) plus a structured
    trace of the human-readable output;
  * the recursive legacy loader is translated into a fuel-indexed function whose
    `diverge` result marks fuel exhaustion, so termination questions become
    statements quantified over fuel.

Types from packages of this repository that are not part of the given sources
(`image.History`, `manifestItem`, the store interfaces, `image.CheckOS`,
`reference` parsing) are modelled from the spec at its interface boundary, as
noted on each definition.
-/

/-- A diff ID: the content hash of one layer's uncompressed changeset.  The
source handles these as digest strings. -/
abbrev DiffID := String

/-- An image ID: the content hash of an image's raw config bytes.  The source
handles these as digest strings; the empty string stands for "no parent", as in
`parentLink.parentID == ""` in the source. -/
abbrev ImageID := String

/-- A chain ID.  In the source this is a digest folded over the ordered diff-id
sequence; the spec (§3) states it is a pure function of that sequence, so the
model uses the sequence itself as the key (collision-freeness of the hash made
literal). -/
abbrev ChainID := List DiffID

/-- Modelled from the spec: one `image.History` entry (the `image` package is
not among the given sources).  The spec (§3) says an entry records the creation
time (optional), a comment, and whether the layer is empty (metadata-only).
`time.Time.Equal` is modelled as equality on the `Int` timestamp. -/
structure History where
  created : Option Int
  comment : String
  emptyLayer : Bool
deriving DecidableEq, Repr

/-- Modelled from the spec: the decoded image config (`image.Image` is not
among the given sources).  `raw` holds the config bytes; the image id minted by
the content-addressed image store is modelled as `raw` itself. -/
structure Image where
  raw : String
  os : String
  platform : String
  rootFS : List DiffID
  history : List History
deriving DecidableEq, Repr

/-- Modelled from the spec: one manifest entry (`manifestItem` is declared in a
file of this package not among the given sources; the spec §3 lists its
fields).  `config` is the already-decoded config of the entry's config file;
`layers` are the staged per-layer blobs, each carrying the diff-id that the
store would compute from its decompressed content. -/
structure LayerBlob where
  diffID : DiffID
deriving DecidableEq, Repr

structure manifestItem where
  config : Image
  layers : List LayerBlob
  repoTags : List String
  parent : ImageID
deriving DecidableEq, Repr

/-- A normalized name:tag reference (`reference.NamedTagged`, modelled from the
spec at the interface boundary). -/
structure Ref where
  name : String
  tag : String
deriving DecidableEq, Repr

/-- From `load.go`: `type parentLink struct { id, parentID image.ID }`. -/
structure parentLink where
  id : ImageID
  parentID : ImageID
deriving DecidableEq, Repr

/-- The error taxonomy of the `Load` path (§7 of the spec; each constructor is
one `return err`/`fmt.Errorf` site of `load.go`). -/
inductive LoadErr where
  | invalidManifest
  | osNotSupported (os : String)
  | layerCountMismatch (expected actual : Nat)
  | diffIDMismatch (idx : Nat) (expected actual : DiffID)
  | invalidTag (t : String)
  | imageNotFound (id : ImageID)
  | invalidParent (parent child : ImageID)
  | unsupportedLegacyFormat
  | invalidTargetID (oldID : String)
  | configReadError (oldID : String)
  | layerReadError (oldID : String)
deriving DecidableEq, Repr

/-- One structured human-readable output line written to `outStream`:
`Loaded image ID: …`, `Loaded image: name:tag`, or the tag-supersession
warning of `setLoadedTag`. -/
inductive OutEvent where
  | loadedID (id : ImageID)
  | loadedTag (ref : Ref)
  | tagSupersede (ref : Ref) (prev : ImageID)
deriving DecidableEq, Repr

def OutEvent.isLoadedID : OutEvent → Bool
  | .loadedID _ => true
  | _ => false

def OutEvent.isLoadedTag : OutEvent → Bool
  | .loadedTag _ => true
  | _ => false

/-- A line reporting a successfully loaded image (either form). -/
def OutEvent.isLoadedLine (e : OutEvent) : Bool :=
  e.isLoadedID || e.isLoadedTag

/-- The mutable stores a `Load` call touches: the layer store `l.lss` (keyed by
chain, holding each layer's diff-id), the image store `l.is` (content
addressed), its parent assignments, and the reference store `l.rs`.  Updates
cons a fresh binding; `List.lookup` returns the newest one. -/
structure LoadState where
  lss : List (ChainID × DiffID)
  images : List (ImageID × Image)
  parents : List (ImageID × ImageID)
  refs : List (Ref × ImageID)
deriving DecidableEq, Repr

/-- The injected environment: the host-OS runnability predicate
(`image.CheckOS`), the optional platform filter (`l.platformMatcher`), the
repo-tag parser (`reference.ParseNormalizedNamed` + `NamedTagged`), and the
host OS name (`runtime.GOOS`), per spec §9 these are injected capabilities. -/
structure Env where
  hostOS : String
  checkOS : String → Bool
  platformMatcher : Option (String → Bool)
  parseTag : String → Option Ref

/- ### Pure helpers of load.go -/

/-- From `load.go` `checkValidParent`, inner loop body: the `Created` pointers
must be equally absent, equal when present (`time.Equal`), and the entries
`reflect.DeepEqual` after overriding the child's `Created` with the parent's. -/
def historyEntryEq (hP hC : History) : Bool :=
  (hP.created.isNone == hC.created.isNone) &&
  (match hP.created, hC.created with
   | some tP, some tC => tP == tC
   | _, _ => true) &&
  ({ hC with created := hP.created } == hP)

/-- From `load.go` `checkValidParent`: empty histories on both sides are
valid; otherwise the child must have exactly one more entry than the parent
(`len(img.History)-len(parent.History) != 1` on Go ints) and each parent entry
must match the child entry at the same index. -/
def checkValidParent (img parent : Image) : Bool :=
  if img.history.length == 0 && parent.history.length == 0 then
    true
  else if (img.history.length : Int) - (parent.history.length : Int) != 1 then
    false
  else
    (parent.history.zip img.history).all fun p => historyEntryEq p.1 p.2

/-- From `load.go` `validatedParentLinks`: each link is kept verbatim when some
link in the batch has its id equal to this link's parent id without being the
link's own id; otherwise its parent id is cleared. -/
def validatedParentLinks (pl : List parentLink) : List parentLink :=
  pl.map fun p =>
    if pl.any fun p2 => p2.id == p.parentID && p2.id != p.id then p
    else { p with parentID := "" }

/-- From `load.go` `validateManifest`: a decoded-but-nil manifest is rejected;
anything else (including the empty slice) passes. -/
def validateManifest (manifest : Option (List manifestItem)) : Option LoadErr :=
  match manifest with
  | none => some .invalidManifest
  | some _ => none

/-- From `load.go` `setLoadedTag`: warn when the reference already resolves to
a different image id, then add the tag with overwrite.  Returns the new
reference store and the warning lines written. -/
def setLoadedTag (rs : List (Ref × ImageID)) (ref : Ref) (imgID : ImageID) :
    List (Ref × ImageID) × List OutEvent :=
  let warn : List OutEvent :=
    match rs.lookup ref with
    | some prevID => if prevID != imgID then [.tagSupersede ref prevID] else []
    | none => []
  ((ref, imgID) :: rs, warn)

/-- From `load.go` `setParentID`: get both images, require
`checkValidParent`, then `is.SetParent`. -/
def setParentID (st : LoadState) (id parentID : ImageID) :
    Except LoadErr LoadState :=
  match st.images.lookup id with
  | none => .error (.imageNotFound id)
  | some img =>
    match st.images.lookup parentID with
    | none => .error (.imageNotFound parentID)
    | some parent =>
      if checkValidParent img parent then
        .ok { st with parents := (id, parentID) :: st.parents }
      else
        .error (.invalidParent parentID id)

/-- From `load.go` `Load`, the loop after the manifest entries: commit every
surviving link that still has a non-empty parent id; the first error aborts. -/
def commitParents (st : LoadState) : List parentLink → Option LoadErr × LoadState
  | [] => (none, st)
  | p :: rest =>
    if p.parentID != "" then
      match setParentID st p.id p.parentID with
      | .error e => (some e, st)
      | .ok st' => commitParents st' rest
    else
      commitParents st rest

/- ### Spec-side statement of the history invariant (§3) -/

/-- The spec's wording for one pair of history entries: "pairwise-equal on
every field except `Created`, which must be either both absent or both
present". -/
def specEntryCompat (hP hC : History) : Prop :=
  (hP.created.isSome ↔ hC.created.isSome) ∧ { hC with created := hP.created } = hP

/-- The spec's wording of the parent-validation invariant (§3): the child's
History is exactly its parent's History with zero or one appended entries,
entrywise compatible on the common part. -/
def specHistoryCompat (child parent : List History) : Prop :=
  (child.length = parent.length ∨ child.length = parent.length + 1) ∧
  ∀ i, (hp : i < parent.length) → (hc : i < child.length) →
    specEntryCompat (parent.get ⟨i, hp⟩) (child.get ⟨i, hc⟩)

theorem checkValidParent_implies_spec (img parent : Image)
    (h : checkValidParent img parent = true) :
    specHistoryCompat img.history parent.history := by
  unfold checkValidParent at h
  by_cases h0 : img.history.length == 0 && parent.history.length == 0
  · simp only [h0, if_true] at h
    simp only [Bool.and_eq_true, beq_iff_eq] at h0
    constructor
    · left; omega
    · intro i hp _
      omega
  · rw [if_neg h0] at h
    by_cases h1 : (img.history.length : Int) - (parent.history.length : Int) != 1
    · simp [h1] at h
    · rw [if_neg h1] at h
      simp only [bne, Bool.not_eq_true', beq_iff_eq, Bool.not_eq_false] at h1
      have hlen : img.history.length = parent.history.length + 1 := by omega
      refine ⟨Or.inr hlen, ?_⟩
      intro i hp hc
      have hiz : i < (parent.history.zip img.history).length := by
        simp [List.length_zip]; omega
      have hmem : (parent.history.get ⟨i, hp⟩, img.history.get ⟨i, hc⟩) ∈
          parent.history.zip img.history := by
        have hg : (parent.history.zip img.history)[i] =
            (parent.history.get ⟨i, hp⟩, img.history.get ⟨i, hc⟩) := by
          simp [List.getElem_zip]
        exact hg ▸ List.getElem_mem hiz
      have he := List.all_eq_true.mp h _ hmem
      simp only [historyEntryEq, Bool.and_eq_true, beq_iff_eq] at he
      refine ⟨?_, he.2⟩
      have hn := he.1.1
      simp only [List.get_eq_getElem]
      simp only [List.get_eq_getElem] at he
      cases hP : parent.history[i].created <;>
        cases hC : img.history[i].created <;>
          simp [hP, hC] at hn ⊢

/- ### The per-layer resolution loop (load.go lines 114-138 and loadLayer) -/

/-- Result of the per-layer loop for one manifest entry: the first error if
any, the layer store as mutated so far, the chain keys of the registrations
performed (`lss.Register` calls), and the diff-ids of the layers obtained so
far (by store hit or by registration), in order. -/
structure LayersOut where
  err : Option LoadErr
  lss : List (ChainID × DiffID)
  regs : List ChainID
  layers : List DiffID
deriving DecidableEq, Repr

/-- From `load.go` `Load` lines 114-138 plus `loadLayer`: for each expected
diff-id (paired with its staged layer blob), extend the running chain by the
expected diff-id and query the layer store; on a hit skip registration, on a
miss register the blob's decompressed content keyed by the chain accumulated
so far (the store derives the new key from the blob's content hash); in either
case require the obtained layer's diff-id to equal the expected one, else fail
with `diffIDMismatch`. -/
def resolveLayers (lss : List (ChainID × DiffID)) (accum : ChainID) (i : Nat) :
    List (DiffID × LayerBlob) → LayersOut
  | [] => ⟨none, lss, [], []⟩
  | (d, blob) :: rest =>
    match lss.lookup (accum ++ [d]) with
    | some ly =>
      if ly == d then
        let r := resolveLayers lss (accum ++ [d]) (i + 1) rest
        ⟨r.err, r.lss, r.regs, ly :: r.layers⟩
      else
        ⟨some (.diffIDMismatch i d ly), lss, [], [ly]⟩
    | none =>
      let key := accum ++ [blob.diffID]
      let lss1 := (key, blob.diffID) :: lss
      if blob.diffID == d then
        let r := resolveLayers lss1 (accum ++ [d]) (i + 1) rest
        ⟨r.err, r.lss, key :: r.regs, blob.diffID :: r.layers⟩
      else
        ⟨some (.diffIDMismatch i d blob.diffID), lss1, [key], [blob.diffID]⟩

/- ### Tag assignment loop (load.go lines 147-159) -/

/-- From `load.go` lines 147-159: parse each repo tag, reject unparsable or
untagged references with `invalidTag`, otherwise `setLoadedTag` then write the
`Loaded image: …` line and bump `imageRefCount`.  Returns the first error, the
updated reference store, the output written, and the count of tags assigned. -/
def assignTags (env : Env) (rs : List (Ref × ImageID)) (imgID : ImageID) :
    List String → Option LoadErr × List (Ref × ImageID) × List OutEvent × Nat
  | [] => (none, rs, [], 0)
  | t :: ts =>
    match env.parseTag t with
    | none => (some (.invalidTag t), rs, [], 0)
    | some ref =>
      let s := setLoadedTag rs ref imgID
      match assignTags env s.1 imgID ts with
      | (err, rs2, out2, n) => (err, rs2, s.2 ++ [.loadedTag ref] ++ out2, n + 1)

/- ### The manifest-entry loop (load.go lines 83-163) -/

/-- The accumulator of the manifest-entry loop: the stores, the output written
so far, the ids accumulated into `imageIDsStr` (one per created image), the
current `imageRefCount`, the collected `parentLinks`, the chain keys of all
layer registrations, and the ids passed to `LogImageEvent`. -/
structure LoopState where
  st : LoadState
  out : List OutEvent
  idLines : List ImageID
  refCount : Nat
  links : List parentLink
  regs : List ChainID
  events : List ImageID
deriving DecidableEq, Repr

/-- From `load.go` `Load` lines 83-163, one pass over the manifest entries:
check the config's OS is runnable on the host, skip the entry when the
platform filter does not match, check the layer-count invariant, resolve the
layers, create the image (content addressed: the minted id is the config
bytes), accumulate the `Loaded image ID` line, reset and recount
`imageRefCount` while assigning tags, record the entry's parent link, and log
the image event. -/
def processEntries (env : Env) (ls : LoopState) :
    List manifestItem → Option LoadErr × LoopState
  | [] => (none, ls)
  | m :: rest =>
    let img := m.config
    if env.checkOS img.os = false then
      (some (.osNotSupported img.os), ls)
    else if (match env.platformMatcher with
             | some f => !f img.platform
             | none => false : Bool) then
      processEntries env ls rest
    else if m.layers.length != img.rootFS.length then
      (some (.layerCountMismatch m.layers.length img.rootFS.length), ls)
    else
      let r := resolveLayers ls.st.lss [] 0 (img.rootFS.zip m.layers)
      let ls1 : LoopState :=
        { ls with st := { ls.st with lss := r.lss }, regs := ls.regs ++ r.regs }
      match r.err with
      | some e => (some e, ls1)
      | none =>
        let imgID : ImageID := img.raw
        let ls2 : LoopState :=
          { ls1 with
              st := { ls1.st with images := (imgID, img) :: ls1.st.images },
              idLines := ls1.idLines ++ [imgID],
              refCount := 0 }
        match assignTags env ls2.st.refs imgID m.repoTags with
        | (some e, rs2, out2, n) =>
          (some e,
           { ls2 with
               st := { ls2.st with refs := rs2 },
               out := ls2.out ++ out2,
               refCount := n })
        | (none, rs2, out2, n) =>
          processEntries env
            { ls2 with
                st := { ls2.st with refs := rs2 },
                out := ls2.out ++ out2,
                refCount := n,
                links := ls2.links ++ [⟨imgID, m.parent⟩],
                events := ls2.events ++ [imgID] }
            rest

/-- From `load.go` `Load`: decode/validate the manifest (a `none` manifest is
JSON `null`), run the entry loop, commit the validated parent links, and, when
`imageRefCount` ended at zero, write the accumulated `Loaded image ID` lines.
Returns the first error (if any) and the final loop state, whose `out` field
is everything written to `outStream`. -/
def LoadManifest (env : Env) (st : LoadState)
    (manifest : Option (List manifestItem)) : Option LoadErr × LoopState :=
  let ls0 : LoopState := ⟨st, [], [], 0, [], [], []⟩
  match validateManifest manifest with
  | some e => (some e, ls0)
  | none =>
    match processEntries env ls0 (manifest.getD []) with
    | (some e, ls) => (some e, ls)
    | (none, ls) =>
      match commitParents ls.st (validatedParentLinks ls.links) with
      | (some e, st') => (some e, { ls with st := st' })
      | (none, st') =>
        (none,
         { ls with
             st := st',
             out := ls.out ++
               (if ls.refCount == 0 then ls.idLines.map OutEvent.loadedID
                else []) })

/- ### The legacy loader (load.go lines 254-408) -/

/-- Modelled from the spec: the decoded legacy per-directory JSON
(`v1.HistoryFromConfig` and `MakeConfigFromV1Config` are not among the given
sources).  `raw` is the JSON text, `histEntry` the history entry the v1
translation synthesizes from it.  The content hash of the synthesized config
is modelled as `raw` (coarser than the real hash, which also covers the
synthesized rootFS/history; none of the proved claims depend on the minted id
values). -/
structure legacyImg where
  os : String
  parent : String
  raw : String
  histEntry : History
deriving DecidableEq, Repr

/-- Modelled from the spec: the staged legacy archive — top-level directory
names, each directory's decoded config JSON, each directory's layer blob, and
the decoded `repositories` file (name → tag → legacy id). -/
structure LegacyArchive where
  dirs : List String
  entries : List (String × legacyImg)
  layers : List (String × LayerBlob)
  repositories : List (String × List (String × String))
deriving Repr

/-- The legacy loader's state: the memoization map from legacy ids to minted
image ids (`legacyLoadedMap`), plus the shared stores. -/
structure LegacyState where
  loadedMap : List (String × ImageID)
  st : LoadState
deriving DecidableEq, Repr

/-- Result of one fuel-indexed `legacyLoadImage` call; `diverge` marks fuel
exhaustion, so non-termination of the Go recursion shows up as `diverge` at
every fuel. -/
inductive LRes where
  | diverge
  | err (e : LoadErr) (s : LegacyState)
  | ok (s : LegacyState)
deriving DecidableEq, Repr

/-- Result of the parent-resolution `for` loop inside `legacyLoadImage`. -/
inductive PRes where
  | diverge
  | err (e : LoadErr) (s : LegacyState)
  | ok (s : LegacyState) (pid : ImageID)
deriving DecidableEq, Repr

/-- The non-recursive tail of `legacyLoadImage` (load.go lines 355-407), run
once the parent (if any) is resolved to `pid`: rebuild rootFS and history from
the parent image's, register the directory's layer keyed by the parent chain,
synthesize the v1 config, create the image (content addressed), release the
layer, set the parent when there is one, and record the id in the load map. -/
def legacyFinish (_env : Env) (arch : LegacyArchive) (oldID : String)
    (img : legacyImg) (os : String) (pid : ImageID) (s1 : LegacyState) : LRes :=
  match (if pid != "" then
           match s1.st.images.lookup pid with
           | none => Except.error (LoadErr.imageNotFound pid)
           | some pImg => Except.ok (pImg.rootFS, pImg.history)
         else Except.ok ([], [])) with
  | .error e => .err e s1
  | .ok (rfs, hist) =>
    match arch.layers.lookup oldID with
    | none => .err (.layerReadError oldID) s1
    | some blob =>
      let rootFS1 := rfs ++ [blob.diffID]
      let history1 := hist ++ [img.histEntry]
      let imgID : ImageID := img.raw
      let imgRec : Image := ⟨img.raw, os, os, rootFS1, history1⟩
      let st1 :=
        { s1.st with
            lss := (rootFS1, blob.diffID) :: s1.st.lss,
            images := (imgID, imgRec) :: s1.st.images }
      let st2 :=
        if pid != "" then
          { st1 with parents := (imgID, pid) :: st1.parents }
        else st1
      .ok ⟨(oldID, imgID) :: s1.loadedMap, st2⟩

mutual

/-- From `load.go` `legacyLoadImage`: return early when the id is already in
the load map; decode the config; default an empty OS to the host OS and check
runnability; resolve the parent through the `for` loop; then finish with the
non-recursive tail (`legacyFinish`).  Fuel is decremented on every recursive
call; `diverge` means the fuel ran out. -/
def legacyLoadImage (env : Env) (arch : LegacyArchive) :
    Nat → String → LegacyState → LRes
  | 0, _, _ => .diverge
  | fuel + 1, oldID, s =>
    if (s.loadedMap.lookup oldID).isSome then .ok s
    else
      match arch.entries.lookup oldID with
      | none => .err (.configReadError oldID) s
      | some img =>
        let os := if img.os == "" then env.hostOS else img.os
        if env.checkOS os = false then .err (.osNotSupported os) s
        else
          match (if img.parent != "" then
                   legacyParentLoop env arch fuel img.parent s
                 else .ok s "") with
          | .diverge => .diverge
          | .err e s' => .err e s'
          | .ok s1 pid => legacyFinish env arch oldID img os pid s1

/-- From `load.go` `legacyLoadImage`, the parent-resolution `for` loop: look
the parent up in the load map, breaking with its minted id when present, else
recursively load it and loop again. -/
def legacyParentLoop (env : Env) (arch : LegacyArchive) :
    Nat → String → LegacyState → PRes
  | 0, _, _ => .diverge
  | fuel + 1, p, s =>
    match s.loadedMap.lookup p with
    | some pid => .ok s pid
    | none =>
      match legacyLoadImage env arch fuel p s with
      | .diverge => .diverge
      | .err e s' => .err e s'
      | .ok s' => legacyParentLoop env arch fuel p s'

end

/-- Result of the whole `legacyLoad`: first error if any, final state, the
directory names scanned, and the output written. -/
inductive LLRes where
  | diverge
  | done (err : Option LoadErr) (s : LegacyState) (scanned : List String)
      (out : List OutEvent)
deriving DecidableEq, Repr

/-- From `load.go` `legacyLoad`, the directory loop: load every top-level
directory as one legacy image, recording each directory scanned. -/
def legacyLoadDirs (env : Env) (arch : LegacyArchive) (fuel : Nat) :
    List String → LegacyState → List String → LLRes
  | [], s, scanned => .done none s scanned []
  | d :: ds, s, scanned =>
    match legacyLoadImage env arch fuel d s with
    | .diverge => .diverge
    | .err e s' => .done (some e) s' (scanned ++ [d]) []
    | .ok s' => legacyLoadDirs env arch fuel ds s' (scanned ++ [d])

/-- From `load.go` `legacyLoad`, the inner loop over one repository's tag map:
resolve the legacy id through the load map (an unknown id fails with
`invalidTargetID`), then assign the tag. -/
def legacyApplyTagMap (s : LegacyState) (name : String) :
    List (String × String) → Option LoadErr × LegacyState × List OutEvent
  | [] => (none, s, [])
  | (tag, oldID) :: rest =>
    match s.loadedMap.lookup oldID with
    | none => (some (.invalidTargetID oldID), s, [])
    | some imgID =>
      let r := setLoadedTag s.st.refs ⟨name, tag⟩ imgID
      let s1 : LegacyState := { s with st := { s.st with refs := r.1 } }
      match legacyApplyTagMap s1 name rest with
      | (err, s2, out2) => (err, s2, r.2 ++ out2)

/-- From `load.go` `legacyLoad`, the outer loop over the `repositories`
file. -/
def legacyApplyRepos (s : LegacyState) :
    List (String × List (String × String)) →
      Option LoadErr × LegacyState × List OutEvent
  | [] => (none, s, [])
  | (name, tagMap) :: rest =>
    match legacyApplyTagMap s name tagMap with
    | (some e, s1, out1) => (some e, s1, out1)
    | (none, s1, out1) =>
      match legacyApplyRepos s1 rest with
      | (err, s2, out2) => (err, s2, out1 ++ out2)

/-- From `load.go` `legacyLoad`: on a Windows host fail immediately with the
unsupported-legacy-format error, before reading any directory; otherwise load
every directory, then apply the `repositories` tag file. -/
def legacyLoad (env : Env) (arch : LegacyArchive) (fuel : Nat)
    (st : LoadState) : LLRes :=
  if env.hostOS == "windows" then
    .done (some .unsupportedLegacyFormat) ⟨[], st⟩ [] []
  else
    match legacyLoadDirs env arch fuel arch.dirs ⟨[], st⟩ [] with
    | .diverge => .diverge
    | .done (some e) s scanned out => .done (some e) s scanned out
    | .done none s scanned out =>
      match legacyApplyRepos s arch.repositories with
      | (err, s1, out1) => .done err s1 scanned (out ++ out1)

/- ### Helper lemmas -/

theorem commitParents_images (ps : List parentLink) (st : LoadState) :
    ((commitParents st ps).2).images = st.images := by
  induction ps generalizing st with
  | nil => rfl
  | cons p rest ih =>
    simp only [commitParents]
    split
    · cases hsp : setParentID st p.id p.parentID with
      | error e => simp
      | ok st' =>
        simp only []
        have : st'.images = st.images := by
          unfold setParentID at hsp
          split at hsp
          · cases hsp
          · split at hsp
            · cases hsp
            · split at hsp
              · cases hsp; rfl
              · cases hsp
        rw [ih st', this]
    · exact ih st

theorem commitParents_refs (ps : List parentLink) (st : LoadState) :
    ((commitParents st ps).2).refs = st.refs := by
  induction ps generalizing st with
  | nil => rfl
  | cons p rest ih =>
    simp only [commitParents]
    split
    · cases hsp : setParentID st p.id p.parentID with
      | error e => simp
      | ok st' =>
        simp only []
        have : st'.refs = st.refs := by
          unfold setParentID at hsp
          split at hsp
          · cases hsp
          · split at hsp
            · cases hsp
            · split at hsp
              · cases hsp; rfl
              · cases hsp
        rw [ih st', this]
    · exact ih st

theorem commitParents_parents_mono (ps : List parentLink) (st : LoadState)
    (q : ImageID × ImageID) (hq : q ∈ st.parents) :
    q ∈ ((commitParents st ps).2).parents := by
  induction ps generalizing st with
  | nil => exact hq
  | cons p rest ih =>
    simp only [commitParents]
    split
    · cases hsp : setParentID st p.id p.parentID with
      | error e => simpa using hq
      | ok st' =>
        simp only []
        refine ih st' ?_
        unfold setParentID at hsp
        split at hsp
        · cases hsp
        · split at hsp
          · cases hsp
          · split at hsp
            · cases hsp; simpa using Or.inr hq
            · cases hsp
    · exact ih st hq

theorem commitParents_skip_all (ps : List parentLink) (st : LoadState)
    (h : ∀ q ∈ ps, q.parentID = "") : commitParents st ps = (none, st) := by
  induction ps with
  | nil => rfl
  | cons p rest ih =>
    have hp : p.parentID = "" := h p (by simp)
    simp only [commitParents, hp]
    simpa using ih fun q hq => h q (by simp [hq])

theorem resolveLayers_lss_grow (ps : List (DiffID × LayerBlob))
    (lss : List (ChainID × DiffID)) (accum : ChainID) (i : Nat) :
    lss.Sublist (resolveLayers lss accum i ps).lss := by
  induction ps generalizing lss accum i with
  | nil => simp [resolveLayers]
  | cons p rest ih =>
    obtain ⟨d, blob⟩ := p
    simp only [resolveLayers]
    split
    · split
      · exact ih lss (accum ++ [d]) (i + 1)
      · simp
    · split
      · exact List.Sublist.trans (List.sublist_cons_self _ _)
          (ih _ (accum ++ [d]) (i + 1))
      · exact List.sublist_cons_self _ _

theorem processEntries_images_sublist (ms : List manifestItem) (env : Env)
    (ls : LoopState) :
    ls.st.images.Sublist ((processEntries env ls ms).2.st.images) := by
  induction ms generalizing ls with
  | nil => simp [processEntries]
  | cons m rest ih =>
    simp only [processEntries]
    split
    · simp
    · split
      · exact ih ls
      · split
        · simp
        · split
          · simp
          · split
            · simp
            · refine List.Sublist.trans ?_ (ih _)
              exact List.sublist_cons_self _ _

/-- Images are only ever added to the image store by a `Load` call, never
removed: the initial image-store contents survive as a sublist. -/
theorem LoadManifest_images_sublist (env : Env) (st : LoadState)
    (manifest : Option (List manifestItem)) :
    st.images.Sublist ((LoadManifest env st manifest).2.st.images) := by
  cases manifest with
  | none => simp [LoadManifest, validateManifest]
  | some ms =>
    have h1 := processEntries_images_sublist ms env ⟨st, [], [], 0, [], [], []⟩
    simp only [LoadManifest, validateManifest, Option.getD]
    rcases hpe : processEntries env ⟨st, [], [], 0, [], [], []⟩ ms with ⟨e1, ls⟩
    rw [hpe] at h1
    cases e1 with
    | some e => simpa using h1
    | none =>
      dsimp only
      have h2 := commitParents_images (validatedParentLinks ls.links) ls.st
      rcases hcp : commitParents ls.st (validatedParentLinks ls.links)
        with ⟨e2, st2⟩
      rw [hcp] at h2
      simp only at h2
      cases e2 <;> simp only <;> rw [h2] <;> simpa using h1

/- ### Concrete fixtures used by witnesses and counterexamples -/

/-- The empty stores. -/
def emptyState : LoadState := ⟨[], [], [], []⟩

/-- A Linux host accepting every OS and platform; every tag string parses to
`name:latest`. -/
def envLinux : Env := ⟨"linux", fun _ => true, none, fun s => some ⟨s, "latest"⟩⟩

/-- A Windows host (for the legacy-format gate). -/
def envWindows : Env :=
  ⟨"windows", fun _ => true, none, fun s => some ⟨s, "latest"⟩⟩

/-- The empty legacy archive. -/
def emptyArchive : LegacyArchive := ⟨[], [], [], []⟩

/- ### Claim C5 -/

/-- Claim C5: a manifest file that decodes to `null` fails the Load with
`InvalidManifest`, while a manifest that decodes to the empty sequence `[]`
succeeds and loads nothing — no image created, no layer registered, no tag
assigned, nothing written. -/
theorem manifest_null_vs_empty (env : Env) (st : LoadState) :
    LoadManifest env st none =
      (some .invalidManifest, ⟨st, [], [], 0, [], [], []⟩) ∧
    LoadManifest env st (some []) = (none, ⟨st, [], [], 0, [], [], []⟩) := by
  constructor
  · rfl
  · rfl

/- ### Claim C9 -/

/-- Claim C9: on a Windows host, a legacy-format load fails immediately with
`UnsupportedLegacyFormat`: no directory of the archive is scanned and the
stores are returned unchanged. -/
theorem legacyLoad_windows_unsupported (env : Env) (arch : LegacyArchive)
    (fuel : Nat) (st : LoadState) (h : env.hostOS = "windows") :
    legacyLoad env arch fuel st =
      .done (some .unsupportedLegacyFormat) ⟨[], st⟩ [] [] := by
  simp [legacyLoad, h]

theorem legacyLoad_windows_unsupported_witness :
    legacyLoad envWindows emptyArchive 7 emptyState =
      .done (some .unsupportedLegacyFormat) ⟨[], emptyState⟩ [] [] :=
  legacyLoad_windows_unsupported envWindows emptyArchive 7 emptyState rfl

/- ### Claim C8 -/

/-- Claim C8: tag assignment is last-writer-wins — the reference afterwards
maps to the new image id unconditionally; a supersession warning is written
exactly when the reference previously mapped to a different image id (naming
that previous id); and no image is ever deleted by a load (the image store
only grows). -/
theorem setLoadedTag_spec (rs : List (Ref × ImageID)) (ref : Ref)
    (imgID : ImageID) :
    ((setLoadedTag rs ref imgID).1.lookup ref = some imgID) ∧
    ((setLoadedTag rs ref imgID).2 ≠ [] ↔
      ∃ prev, rs.lookup ref = some prev ∧ prev ≠ imgID) ∧
    (∀ prev, rs.lookup ref = some prev → prev ≠ imgID →
      (setLoadedTag rs ref imgID).2 = [.tagSupersede ref prev]) ∧
    (∀ (env : Env) (st : LoadState) (manifest : Option (List manifestItem)),
      st.images.Sublist ((LoadManifest env st manifest).2.st.images)) := by
  refine ⟨by simp [setLoadedTag], ?_, ?_, fun env st manifest =>
    LoadManifest_images_sublist env st manifest⟩
  · simp only [setLoadedTag]
    cases h : rs.lookup ref with
    | none => simp
    | some prev =>
      by_cases hne : prev = imgID
      · simp [hne]
      · simp [hne, bne_iff_ne, Ne, hne]
  · intro prev h hne
    simp [setLoadedTag, h, bne_iff_ne, Ne, hne]

/- ### Claim C2 -/

/-- Claim C2: in `validatedParentLinks`, each link keeps its parent id exactly
when some link of the batch has that parent id as its own id and it is not a
self-reference, and otherwise has it cleared to the empty string; the child id
is never changed and the list keeps its length; and a batch whose links all
have cleared parent ids commits nothing and cannot fail. -/
theorem validatedParentLinks_spec (pl : List parentLink) (i : Nat)
    (p : parentLink) (h : pl[i]? = some p) :
    ((validatedParentLinks pl).length = pl.length) ∧
    ((validatedParentLinks pl)[i]? =
      some (if (∃ p2 ∈ pl, p2.id = p.parentID) ∧ p.parentID ≠ p.id then p
            else { p with parentID := "" })) ∧
    (∀ ps (st : LoadState), (∀ q ∈ ps, q.parentID = "") →
      commitParents st ps = (none, st)) := by
  refine ⟨by simp [validatedParentLinks], ?_, commitParents_skip_all⟩
  simp only [validatedParentLinks, List.getElem?_map, h, Option.map_some',
    Option.some.injEq]
  by_cases hc : ∃ p2 ∈ pl, p2.id = p.parentID ∧ p2.id ≠ p.id
  · obtain ⟨p2, hmem, heq, hne⟩ := hc
    have hany : (pl.any fun p2 => p2.id == p.parentID && p2.id != p.id) = true := by
      rw [List.any_eq_true]
      exact ⟨p2, hmem, by simp [heq, bne_iff_ne, heq ▸ hne]⟩
    rw [if_pos hany, if_pos ⟨⟨p2, hmem, heq⟩, heq ▸ hne⟩]
  · have hany : ¬ ((pl.any fun p2 => p2.id == p.parentID && p2.id != p.id) = true) := by
      rw [List.any_eq_true]
      rintro ⟨p2, hmem, hb⟩
      simp only [Bool.and_eq_true, beq_iff_eq, bne_iff_ne] at hb
      exact hc ⟨p2, hmem, hb.1, hb.2⟩
    rw [if_neg hany, if_neg]
    rintro ⟨⟨p2, hmem, heq⟩, hne⟩
    exact hc ⟨p2, hmem, heq, heq ▸ hne⟩

theorem validatedParentLinks_spec_witness :
    (([⟨"a", "b"⟩, ⟨"b", ""⟩] : List parentLink)[0]? = some ⟨"a", "b"⟩) ∧
    ((validatedParentLinks [⟨"a", "b"⟩, ⟨"b", ""⟩]).length = 2) ∧
    ((validatedParentLinks [⟨"a", "b"⟩, ⟨"b", ""⟩])[0]? = some ⟨"a", "b"⟩) := by
  have h := validatedParentLinks_spec [⟨"a", "b"⟩, ⟨"b", ""⟩] 0 ⟨"a", "b"⟩ rfl
  refine ⟨rfl, h.1, ?_⟩
  rw [h.2.1, if_pos (by decide)]

theorem setLoadedTag_spec_witness :
    (setLoadedTag [(⟨"r", "t"⟩, "old")] ⟨"r", "t"⟩ "new").2 =
      [.tagSupersede ⟨"r", "t"⟩ "old"] :=
  (setLoadedTag_spec [(⟨"r", "t"⟩, "old")] ⟨"r", "t"⟩ "new").2.2.1 "old"
    (by decide) (by decide)

/- ### Claim C10 -/

/-- Claim C10: in the current-format loop the host-OS runnability check runs
before the platform filter — an entry whose config OS the host cannot run
aborts the whole load with the OS error even when the configured filter does
not match that entry; whereas when the OS is runnable, a non-matching entry is
skipped entirely and the load proceeds exactly as if the entry were absent. -/
theorem osCheck_before_platformFilter (env : Env) (st : LoadState)
    (m : manifestItem) (rest : List manifestItem) (f : String → Bool)
    (hm : env.platformMatcher = some f) (hf : f m.config.platform = false) :
    (env.checkOS m.config.os = false →
      (LoadManifest env st (some (m :: rest))).1 =
        some (.osNotSupported m.config.os)) ∧
    (env.checkOS m.config.os = true →
      LoadManifest env st (some (m :: rest)) = LoadManifest env st (some rest)) := by
  constructor
  · intro hos
    simp [LoadManifest, validateManifest, processEntries, hos]
  · intro hos
    have key : ∀ ls, processEntries env ls (m :: rest) = processEntries env ls rest := by
      intro ls
      simp [processEntries, hos, hm, hf]
    simp only [LoadManifest, validateManifest, Option.getD, key]

theorem osCheck_before_platformFilter_witness :
    (LoadManifest
        ⟨"linux", fun os => os == "linux", some fun _ => false,
          fun s => some ⟨s, "latest"⟩⟩
        emptyState
        (some [⟨⟨"cfg9", "plan9", "plan9/amd64", [], []⟩, [], [], ""⟩])).1 =
      some (.osNotSupported "plan9") :=
  (osCheck_before_platformFilter
      ⟨"linux", fun os => os == "linux", some fun _ => false,
        fun s => some ⟨s, "latest"⟩⟩
      emptyState ⟨⟨"cfg9", "plan9", "plan9/amd64", [], []⟩, [], [], ""⟩ []
      (fun _ => false) rfl rfl).1 rfl

/- ### Claim C6 -/

/-- Claim C6: a manifest entry that is reached (runnable OS, not filtered out)
and whose staged layer list length differs from its config's diff-id list
length fails the load with `LayerCountMismatch` before resolving any of that
entry's layers and before creating any image for it: the loop state is
returned untouched, and when the entry heads the manifest the whole load
returns the untouched initial state. -/
theorem layerCountMismatch_fails (env : Env) (ls : LoopState)
    (m : manifestItem) (rest : List manifestItem)
    (hos : env.checkOS m.config.os = true)
    (hmatch : (match env.platformMatcher with
               | some f => !f m.config.platform
               | none => false) = false)
    (hlen : m.layers.length ≠ m.config.rootFS.length) :
    (processEntries env ls (m :: rest) =
      (some (.layerCountMismatch m.layers.length m.config.rootFS.length), ls)) ∧
    (∀ st : LoadState, LoadManifest env st (some (m :: rest)) =
      (some (.layerCountMismatch m.layers.length m.config.rootFS.length),
       ⟨st, [], [], 0, [], [], []⟩)) := by
  have key : ∀ ls', processEntries env ls' (m :: rest) =
      (some (.layerCountMismatch m.layers.length m.config.rootFS.length), ls') := by
    intro ls'
    simp [processEntries, hos, hmatch, bne_iff_ne, hlen]
  exact ⟨key ls, fun st => by
    simp only [LoadManifest, validateManifest, Option.getD, key]⟩

theorem layerCountMismatch_fails_witness :
    LoadManifest envLinux emptyState
        (some [⟨⟨"cfg5", "linux", "linux/amd64", ["d1"], []⟩, [], [], ""⟩]) =
      (some (.layerCountMismatch 0 1), ⟨emptyState, [], [], 0, [], [], []⟩) :=
  (layerCountMismatch_fails envLinux ⟨emptyState, [], [], 0, [], [], []⟩
      ⟨⟨"cfg5", "linux", "linux/amd64", ["d1"], []⟩, [], [], ""⟩ []
      rfl rfl (by decide)).2 emptyState

/- ### Claim C4 -/

theorem resolveLayers_layers_eq (ps : List (DiffID × LayerBlob))
    (lss : List (ChainID × DiffID)) (accum : ChainID) (i : Nat)
    (h : (resolveLayers lss accum i ps).err = none) :
    (resolveLayers lss accum i ps).layers = ps.map Prod.fst := by
  induction ps generalizing lss accum i with
  | nil => simp [resolveLayers]
  | cons p rest ih =>
    obtain ⟨d, blob⟩ := p
    simp only [resolveLayers] at h ⊢
    cases hly : lss.lookup (accum ++ [d]) with
    | some ly =>
      simp only [hly] at h ⊢
      by_cases hbeq : ly = d
      · subst hbeq
        simp only [beq_self_eq_true, if_true] at h ⊢
        simp only [List.map_cons]
        exact congrArg _ (ih _ _ _ h)
      · simp [hbeq] at h
    | none =>
      simp only [hly] at h ⊢
      by_cases hbeq : blob.diffID = d
      · subst hbeq
        simp only [beq_self_eq_true, if_true] at h ⊢
        simp only [List.map_cons]
        exact congrArg _ (ih _ _ _ h)
      · simp [hbeq] at h

/-- Claim C4: per-layer resolution — for the next expected diff-id the chain
extended by it is looked up in the layer store; on a hit nothing is registered
and the loop continues over the unchanged store; on a miss the staged blob is
registered, keyed (through its content hash) at that same chain when the
content matches; in either case a layer whose own diff-id differs from the
expected one fails the loop with `DiffIDMismatch`; and on success the layers
obtained are exactly the expected diff-ids. -/
theorem resolveLayers_spec (lss : List (ChainID × DiffID)) (accum : ChainID)
    (i : Nat) (d : DiffID) (blob : LayerBlob)
    (rest : List (DiffID × LayerBlob)) :
    (∀ ly, lss.lookup (accum ++ [d]) = some ly → ly = d →
      resolveLayers lss accum i ((d, blob) :: rest) =
        ⟨(resolveLayers lss (accum ++ [d]) (i + 1) rest).err,
         (resolveLayers lss (accum ++ [d]) (i + 1) rest).lss,
         (resolveLayers lss (accum ++ [d]) (i + 1) rest).regs,
         d :: (resolveLayers lss (accum ++ [d]) (i + 1) rest).layers⟩) ∧
    (∀ ly, lss.lookup (accum ++ [d]) = some ly → ly ≠ d →
      resolveLayers lss accum i ((d, blob) :: rest) =
        ⟨some (.diffIDMismatch i d ly), lss, [], [ly]⟩) ∧
    (lss.lookup (accum ++ [d]) = none → blob.diffID = d →
      resolveLayers lss accum i ((d, blob) :: rest) =
        ⟨(resolveLayers ((accum ++ [d], d) :: lss) (accum ++ [d]) (i + 1) rest).err,
         (resolveLayers ((accum ++ [d], d) :: lss) (accum ++ [d]) (i + 1) rest).lss,
         (accum ++ [d]) ::
           (resolveLayers ((accum ++ [d], d) :: lss) (accum ++ [d]) (i + 1) rest).regs,
         d :: (resolveLayers ((accum ++ [d], d) :: lss) (accum ++ [d]) (i + 1) rest).layers⟩) ∧
    (lss.lookup (accum ++ [d]) = none → blob.diffID ≠ d →
      resolveLayers lss accum i ((d, blob) :: rest) =
        ⟨some (.diffIDMismatch i d blob.diffID),
         (accum ++ [blob.diffID], blob.diffID) :: lss,
         [accum ++ [blob.diffID]], [blob.diffID]⟩) ∧
    (∀ ps, (resolveLayers lss accum i ps).err = none →
      (resolveLayers lss accum i ps).layers = ps.map Prod.fst) := by
  refine ⟨?_, ?_, ?_, ?_, fun ps h => resolveLayers_layers_eq ps lss accum i h⟩
  · intro ly hly heq
    subst heq
    simp [resolveLayers, hly]
  · intro ly hly hne
    simp [resolveLayers, hly, hne]
  · intro hnone heq
    subst heq
    simp [resolveLayers, hnone]
  · intro hnone hne
    simp [resolveLayers, hnone, hne]

theorem resolveLayers_spec_witness :
    resolveLayers [(["d1"], "d1")] [] 0 [("d1", ⟨"x"⟩)] =
      ⟨none, [(["d1"], "d1")], [], ["d1"]⟩ := by
  have h := (resolveLayers_spec [(["d1"], "d1")] [] 0 "d1" ⟨"x"⟩ []).1 "d1"
    (by decide) rfl
  simp only [resolveLayers] at h
  exact h

/- ### Claim C1 -/

theorem commitParents_compat (ps : List parentLink) (st : LoadState)
    (hpres : ∀ p ∈ ps, p.parentID ≠ "" →
      (st.images.lookup p.id).isSome ∧ (st.images.lookup p.parentID).isSome) :
    ((commitParents st ps).1 = none →
      ∀ p ∈ ps, p.parentID ≠ "" →
        (p.id, p.parentID) ∈ ((commitParents st ps).2).parents ∧
        ∀ img parent, st.images.lookup p.id = some img →
          st.images.lookup p.parentID = some parent →
          specHistoryCompat img.history parent.history) ∧
    ((∃ p ∈ ps, p.parentID ≠ "" ∧
        ∃ img parent, st.images.lookup p.id = some img ∧
          st.images.lookup p.parentID = some parent ∧
          ¬ specHistoryCompat img.history parent.history) →
      ∃ a b, (commitParents st ps).1 = some (.invalidParent a b)) := by
  induction ps generalizing st with
  | nil =>
    constructor
    · intro _ p hp
      exact absurd hp (List.not_mem_nil p)
    · rintro ⟨p, hp, -⟩
      exact absurd hp (List.not_mem_nil p)
  | cons p rest ih =>
    by_cases hpe : p.parentID = ""
    · have hred : commitParents st (p :: rest) = commitParents st rest := by
        simp [commitParents, hpe]
      rw [hred]
      have hpres' : ∀ q ∈ rest, q.parentID ≠ "" →
          (st.images.lookup q.id).isSome ∧ (st.images.lookup q.parentID).isSome :=
        fun q hq => hpres q (List.mem_cons_of_mem p hq)
      obtain ⟨ih1, ih2⟩ := ih st hpres'
      constructor
      · intro hok q hq hqne
        rcases List.mem_cons.mp hq with rfl | hq'
        · exact absurd hpe hqne
        · exact ih1 hok q hq' hqne
      · rintro ⟨q, hq, hqne, img, parent, h1, h2, hnc⟩
        rcases List.mem_cons.mp hq with rfl | hq'
        · exact absurd hpe hqne
        · exact ih2 ⟨q, hq', hqne, img, parent, h1, h2, hnc⟩
    · obtain ⟨hs1, hs2⟩ := hpres p (List.mem_cons_self p rest) hpe
      obtain ⟨img, himg⟩ := Option.isSome_iff_exists.mp hs1
      obtain ⟨parent, hpar⟩ := Option.isSome_iff_exists.mp hs2
      have hbne : (p.parentID != "") = true := by simp [bne_iff_ne, hpe]
      by_cases hcv : checkValidParent img parent = true
      · have hred : commitParents st (p :: rest) =
            commitParents { st with parents := (p.id, p.parentID) :: st.parents }
              rest := by
          simp [commitParents, hbne, setParentID, himg, hpar, hcv]
        rw [hred]
        have hpres' : ∀ q ∈ rest, q.parentID ≠ "" →
            (({ st with parents := (p.id, p.parentID) :: st.parents } :
                LoadState).images.lookup q.id).isSome ∧
            (({ st with parents := (p.id, p.parentID) :: st.parents } :
                LoadState).images.lookup q.parentID).isSome :=
          fun q hq => hpres q (List.mem_cons_of_mem p hq)
        obtain ⟨ih1, ih2⟩ := ih _ hpres'
        constructor
        · intro hok q hq hqne
          rcases List.mem_cons.mp hq with rfl | hq'
          · refine ⟨commitParents_parents_mono rest _ _ (by simp), ?_⟩
            intro img' parent' h1 h2
            rw [himg, Option.some.injEq] at h1
            rw [hpar, Option.some.injEq] at h2
            subst h1; subst h2
            exact checkValidParent_implies_spec img parent hcv
          · exact ih1 hok q hq' hqne
        · rintro ⟨q, hq, hqne, img', parent', h1, h2, hnc⟩
          rcases List.mem_cons.mp hq with rfl | hq'
          · rw [himg, Option.some.injEq] at h1
            rw [hpar, Option.some.injEq] at h2
            subst h1; subst h2
            exact absurd (checkValidParent_implies_spec img parent hcv) hnc
          · exact ih2 ⟨q, hq', hqne, img', parent', h1, h2, hnc⟩
      · have hred : commitParents st (p :: rest) =
            (some (.invalidParent p.parentID p.id), st) := by
          simp [commitParents, hbne, setParentID, himg, hpar, hcv]
        rw [hred]
        constructor
        · intro hok
          cases hok
        · intro _
          exact ⟨p.parentID, p.id, rfl⟩

theorem commitParents_new_compat (ps : List parentLink) (st : LoadState)
    (q : ImageID × ImageID) (hq : q ∈ ((commitParents st ps).2).parents)
    (hnew : q ∉ st.parents) :
    ∃ img parent, st.images.lookup q.1 = some img ∧
      st.images.lookup q.2 = some parent ∧
      specHistoryCompat img.history parent.history := by
  induction ps generalizing st with
  | nil => exact absurd hq hnew
  | cons p rest ih =>
    simp only [commitParents] at hq
    split at hq
    · cases hsp : setParentID st p.id p.parentID with
      | error e =>
        rw [hsp] at hq
        dsimp only at hq
        exact absurd hq hnew
      | ok st' =>
        rw [hsp] at hq
        dsimp only at hq
        unfold setParentID at hsp
        split at hsp
        · cases hsp
        · rename_i img himg
          split at hsp
          · cases hsp
          · rename_i parent hpar
            split at hsp
            · rename_i hcv
              cases hsp
              by_cases hqp : q = (p.id, p.parentID)
              · subst hqp
                exact ⟨img, parent, himg, hpar,
                  checkValidParent_implies_spec img parent hcv⟩
              · refine ih { st with parents := (p.id, p.parentID) :: st.parents }
                  hq ?_
                simp only [List.mem_cons]
                rintro (h | h)
                · exact hqp h
                · exact hnew h
            · cases hsp
    · exact ih st hq hnew

/-- Claim C1: a child's parent assignment is committed only when the spec's
history invariant holds between the child's and the parent's histories (child
history = parent history with zero or one appended entries, pairwise
compatible) — every pair newly present in the parent assignments after the
commit phase, even a phase that later fails, satisfies it; and when any
surviving pair with both images present violates that invariant, the commit
phase fails with an `InvalidParent` error. -/
theorem parentCommit_spec (st : LoadState) (links : List parentLink)
    (hpres : ∀ p ∈ validatedParentLinks links, p.parentID ≠ "" →
      (st.images.lookup p.id).isSome ∧ (st.images.lookup p.parentID).isSome) :
    ((commitParents st (validatedParentLinks links)).1 = none →
      ∀ p ∈ validatedParentLinks links, p.parentID ≠ "" →
        (p.id, p.parentID) ∈
          ((commitParents st (validatedParentLinks links)).2).parents ∧
        ∀ img parent, st.images.lookup p.id = some img →
          st.images.lookup p.parentID = some parent →
          specHistoryCompat img.history parent.history) ∧
    ((∃ p ∈ validatedParentLinks links, p.parentID ≠ "" ∧
        ∃ img parent, st.images.lookup p.id = some img ∧
          st.images.lookup p.parentID = some parent ∧
          ¬ specHistoryCompat img.history parent.history) →
      ∃ a b, (commitParents st (validatedParentLinks links)).1 =
        some (.invalidParent a b)) ∧
    (∀ q ∈ ((commitParents st (validatedParentLinks links)).2).parents,
      q ∉ st.parents →
      ∃ img parent, st.images.lookup q.1 = some img ∧
        st.images.lookup q.2 = some parent ∧
        specHistoryCompat img.history parent.history) :=
  ⟨(commitParents_compat (validatedParentLinks links) st hpres).1,
   (commitParents_compat (validatedParentLinks links) st hpres).2,
   fun q hq hnew =>
     commitParents_new_compat (validatedParentLinks links) st q hq hnew⟩

/-- A two-image store: child `"c"` with a one-entry history, parent `"p"` with
an empty history (a valid parent for `"c"`). -/
def parentStoreExample : LoadState :=
  ⟨[], [("c", ⟨"c", "linux", "linux", [], [⟨some 1, "", false⟩]⟩),
        ("p", ⟨"p", "linux", "linux", [], []⟩)], [], []⟩

theorem parentCommit_spec_witness :
    ("c", "p") ∈
      ((commitParents parentStoreExample
          (validatedParentLinks [⟨"c", "p"⟩, ⟨"p", ""⟩])).2).parents :=
  ((parentCommit_spec parentStoreExample [⟨"c", "p"⟩, ⟨"p", ""⟩]
      (by decide)).1 (by decide) ⟨"c", "p"⟩ (by decide) (by decide)).1

/- ### Claim C7 -/

/-- The platform filter's verdict on one entry (`l.platformMatcher != nil &&
!l.platformMatcher.Match(...)` in the source). -/
def entrySkipped (env : Env) (m : manifestItem) : Bool :=
  match env.platformMatcher with
  | some f => !f m.config.platform
  | none => false

/-- The manifest entries that are not skipped by the platform filter. -/
def keptEntries (env : Env) (ms : List manifestItem) : List manifestItem :=
  ms.filter fun m => !entrySkipped env m

/-- Total number of repo tags over the non-skipped entries. -/
def totalTags (env : Env) (ms : List manifestItem) : Nat :=
  ((keptEntries env ms).map fun m => m.repoTags.length).sum

/-- The tag count of the last non-skipped entry (zero when none): the value
`imageRefCount` holds after the loop. -/
def lastTagCount (env : Env) (ms : List manifestItem) : Nat :=
  ((keptEntries env ms).map fun m => m.repoTags.length).getLastD 0

theorem setLoadedTag_warn_count (rs : List (Ref × ImageID)) (ref : Ref)
    (imgID : ImageID) :
    ((setLoadedTag rs ref imgID).2.countP OutEvent.isLoadedTag = 0) ∧
    ((setLoadedTag rs ref imgID).2.countP OutEvent.isLoadedID = 0) := by
  simp only [setLoadedTag]
  cases rs.lookup ref with
  | none => simp
  | some prev =>
    split <;> simp [OutEvent.isLoadedTag, OutEvent.isLoadedID, List.countP_cons]

theorem assignTags_success (env : Env) (ts : List String)
    (rs : List (Ref × ImageID)) (imgID : ImageID)
    (rs2 : List (Ref × ImageID)) (out : List OutEvent) (n : Nat)
    (h : assignTags env rs imgID ts = (none, rs2, out, n)) :
    n = ts.length ∧ out.countP OutEvent.isLoadedTag = ts.length ∧
    out.countP OutEvent.isLoadedID = 0 := by
  induction ts generalizing rs rs2 out n with
  | nil =>
    simp only [assignTags] at h
    have hn : n = 0 := (congrArg (fun x => x.2.2.2) h).symm
    have hout : out = [] := (congrArg (fun x => x.2.2.1) h).symm
    subst hn; subst hout
    simp
  | cons t ts ih =>
    simp only [assignTags] at h
    cases hp : env.parseTag t with
    | none =>
      rw [hp] at h
      have : (some (LoadErr.invalidTag t) : Option LoadErr) = none :=
        congrArg (fun x => x.1) h
      cases this
    | some ref =>
      rw [hp] at h
      dsimp only at h
      rcases hr : assignTags env (setLoadedTag rs ref imgID).1 imgID ts
        with ⟨err, rsr, outr, nr⟩
      rw [hr] at h
      have herr : err = none := congrArg (fun x => x.1) h
      subst herr
      have hout : (setLoadedTag rs ref imgID).2 ++ [OutEvent.loadedTag ref] ++ outr
          = out := congrArg (fun x => x.2.2.1) h
      have hn : nr + 1 = n := congrArg (fun x => x.2.2.2) h
      obtain ⟨ihn, ihtag, ihid⟩ := ih _ _ _ _ hr
      refine ⟨by simp [← hn, ihn], ?_, ?_⟩
      · rw [← hout]
        simp [List.countP_append, (setLoadedTag_warn_count rs ref imgID).1,
          ihtag, OutEvent.isLoadedTag, List.countP_cons]
      · rw [← hout]
        simp [List.countP_append, (setLoadedTag_warn_count rs ref imgID).2,
          ihid, OutEvent.isLoadedID, List.countP_cons]

theorem processEntries_success (ms : List manifestItem) (env : Env)
    (ls ls' : LoopState) (h : processEntries env ls ms = (none, ls')) :
    ls'.idLines = ls.idLines ++ (keptEntries env ms).map (fun m => m.config.raw) ∧
    ls'.refCount =
      ((keptEntries env ms).map fun m => m.repoTags.length).getLastD ls.refCount ∧
    ls'.out.countP OutEvent.isLoadedTag =
      ls.out.countP OutEvent.isLoadedTag + totalTags env ms ∧
    ls'.out.countP OutEvent.isLoadedID = ls.out.countP OutEvent.isLoadedID := by
  induction ms generalizing ls with
  | nil =>
    simp only [processEntries, Prod.mk.injEq] at h
    rw [← h.2]
    simp [keptEntries, totalTags]
  | cons m rest ih =>
    simp only [processEntries] at h
    by_cases hos : env.checkOS m.config.os = false
    · rw [if_pos hos] at h
      simp at h
    · rw [if_neg hos] at h
      by_cases hskip : (match env.platformMatcher with
                        | some f => !f m.config.platform
                        | none => false) = true
      · rw [if_pos hskip] at h
        have hk : keptEntries env (m :: rest) = keptEntries env rest := by
          simp [keptEntries, List.filter_cons, entrySkipped, hskip]
        have := ih _ h
        simpa [hk, totalTags] using this
      · rw [if_neg hskip] at h
        by_cases hlen : (m.layers.length != m.config.rootFS.length) = true
        · rw [if_pos hlen] at h
          simp at h
        · rw [if_neg hlen] at h
          have hk : keptEntries env (m :: rest) = m :: keptEntries env rest := by
            have : entrySkipped env m = false := by
              simpa [entrySkipped] using hskip
            simp [keptEntries, List.filter_cons, this]
          cases herr : (resolveLayers ls.st.lss [] 0 (m.config.rootFS.zip m.layers)).err with
          | some e => rw [herr] at h; simp at h
          | none =>
            rw [herr] at h
            rcases hta : assignTags env ls.st.refs m.config.raw m.repoTags
              with ⟨err, rs2, out2, n⟩
            rw [hta] at h
            cases err with
            | some e => simp at h
            | none =>
              obtain ⟨ihid, ihrc, ihtag, ihids⟩ := ih _ h
              obtain ⟨hn, htag2, hid2⟩ := assignTags_success env m.repoTags _ _ _ _ _ hta
              subst hn
              refine ⟨?_, ?_, ?_, ?_⟩
              · rw [ihid]
                simp [hk, List.map_cons]
              · rw [ihrc]
                simp only [hk, List.map_cons, List.getLastD_cons]
              · rw [ihtag]
                simp only [List.countP_append, htag2]
                simp [totalTags, hk]
                omega
              · rw [ihids]
                simp [List.countP_append, hid2]

/-- Claim C7 as amended: on a successful load the per-image lines are not
one-per-image; instead one `Loaded image: name:tag` line is written per tag of
each non-skipped entry, and the `Loaded image ID: …` lines (one per loaded
entry) are all written exactly when the last non-skipped entry carries zero
tags (`imageRefCount` after the loop), and none otherwise. -/
theorem loadOutput_characterization (env : Env) (st : LoadState)
    (ms : List manifestItem)
    (hok : (LoadManifest env st (some ms)).1 = none) :
    ((LoadManifest env st (some ms)).2.out.countP OutEvent.isLoadedTag =
      totalTags env ms) ∧
    ((LoadManifest env st (some ms)).2.out.filter OutEvent.isLoadedID =
      if lastTagCount env ms = 0 then
        (keptEntries env ms).map fun m => OutEvent.loadedID m.config.raw
      else []) := by
  simp only [LoadManifest, validateManifest, Option.getD] at hok ⊢
  rcases hpe : processEntries env ⟨st, [], [], 0, [], [], []⟩ ms with ⟨e1, ls⟩
  rw [hpe] at hok
  cases e1 with
  | some e => cases hok
  | none =>
    obtain ⟨hidl, hrc, htag, hid⟩ :=
      processEntries_success ms env ⟨st, [], [], 0, [], [], []⟩ ls hpe
    simp only [List.nil_append, List.countP_nil, Nat.zero_add] at hidl hrc htag hid
    dsimp only at hok ⊢
    rcases hcp : commitParents ls.st (validatedParentLinks ls.links)
      with ⟨e2, st2⟩
    rw [hcp] at hok
    cases e2 with
    | some e => cases hok
    | none =>
      dsimp only
      have hfil : ls.out.filter OutEvent.isLoadedID = [] := by
        rw [List.filter_eq_nil_iff]
        intro a ha
        have := List.countP_eq_zero.mp hid a ha
        simpa using this
      have hrc' : ls.refCount = lastTagCount env ms := hrc
      constructor
      · rw [List.countP_append, htag]
        have : (if (ls.refCount == 0) = true then
            ls.idLines.map OutEvent.loadedID else []).countP
              OutEvent.isLoadedTag = 0 := by
          split
          · rw [List.countP_eq_zero]
            intro a ha
            obtain ⟨x, -, rfl⟩ := List.mem_map.mp ha
            simp [OutEvent.isLoadedTag]
          · simp
        omega
      · rw [List.filter_append, hfil, List.nil_append]
        by_cases h0 : lastTagCount env ms = 0
        · rw [if_pos h0]
          have hco : (ls.refCount == 0) = true := by
            rw [beq_iff_eq, hrc', h0]
          rw [if_pos hco, hidl]
          rw [List.filter_eq_self.mpr]
          · rw [List.map_map]
            rfl
          · intro a ha
            obtain ⟨x, -, rfl⟩ := List.mem_map.mp ha
            simp [OutEvent.isLoadedID]
        · rw [if_neg h0]
          have hco : ¬ ((ls.refCount == 0) = true) := by
            rw [beq_iff_eq, hrc']
            exact h0
          rw [if_neg hco]
          rfl

theorem loadOutput_characterization_witness :
    ((LoadManifest envLinux emptyState
        (some [⟨⟨"cfg1", "linux", "linux/amd64", [], []⟩, [], ["a"], ""⟩])).2.out.countP
      OutEvent.isLoadedTag = 1) := by
  have h := loadOutput_characterization envLinux emptyState
    [⟨⟨"cfg1", "linux", "linux/amd64", [], []⟩, [], ["a"], ""⟩] (by decide)
  rw [h.1]
  decide

/-- One manifest entry with two repo tags: a successful load writes two
`Loaded image: …` lines for this single image. -/
def twoTagEntry : manifestItem :=
  ⟨⟨"cfg1", "linux", "linux/amd64", [], []⟩, [], ["a", "b"], ""⟩

/-- Claim C7 counterexample: loading one image with two tags succeeds and
writes two loaded-image lines for that single image, so "exactly one
human-readable line per successfully loaded image" is false. -/
theorem loadOutput_counterexample :
    (LoadManifest envLinux emptyState (some [twoTagEntry])).1 = none ∧
    (LoadManifest envLinux emptyState (some [twoTagEntry])).2.idLines.length = 1 ∧
    (LoadManifest envLinux emptyState (some [twoTagEntry])).2.out.countP
      OutEvent.isLoadedLine = 2 := by
  refine ⟨by decide, by decide, by decide⟩

/- ### Claim C3 -/

/-- The recursive legacy image load terminates on this id and state: some
finite fuel suffices. -/
def legacyTerminates (env : Env) (arch : LegacyArchive) (oldID : String)
    (s : LegacyState) : Prop :=
  ∃ fuel, legacyLoadImage env arch fuel oldID s ≠ .diverge

/-- A legacy archive whose single image `"a"` names itself as parent — a
parent cycle. -/
def cyclicArchive : LegacyArchive :=
  ⟨["a"], [("a", ⟨"linux", "a", "ja", ⟨none, "", false⟩⟩)], [("a", ⟨"d1"⟩)], []⟩

theorem legacyCycle_diverges (fuel : Nat) :
    ∀ s : LegacyState, s.loadedMap.lookup "a" = none →
      legacyLoadImage envLinux cyclicArchive fuel "a" s = .diverge ∧
      legacyParentLoop envLinux cyclicArchive fuel "a" s = .diverge := by
  induction fuel with
  | zero => exact fun s _ => ⟨rfl, rfl⟩
  | succ fuel ih =>
    intro s hs
    constructor
    · simp only [legacyLoadImage, hs, Option.isSome_none, Bool.false_eq_true,
        if_false]
      have harch : cyclicArchive.entries.lookup "a" =
          some ⟨"linux", "a", "ja", ⟨none, "", false⟩⟩ := rfl
      rw [harch]
      dsimp only
      rw [if_neg (by simp [envLinux])]
      rw [if_pos (show (("a" : String) != "") = true from rfl)]
      rw [(ih s hs).2]
    · simp only [legacyParentLoop, hs]
      rw [(ih s hs).1]

/-- Claim C3 counterexample: on the cyclic legacy archive the recursive load
of image `"a"` exhausts every amount of fuel — the memoization map does not
short-circuit re-entry into an id that is still being resolved, because an id
is only recorded after its whole parent chain has loaded, so the recursion
does not terminate. -/
theorem legacyCycle_counterexample :
    ¬ legacyTerminates envLinux cyclicArchive "a" ⟨[], emptyState⟩ := by
  rintro ⟨fuel, hf⟩
  exact hf (legacyCycle_diverges fuel ⟨[], emptyState⟩ rfl).1

theorem lookup_mem {α β : Type} [BEq α] [LawfulBEq α] {l : List (α × β)}
    {a : α} {b : β} (h : l.lookup a = some b) : (a, b) ∈ l := by
  obtain ⟨l1, l2, rfl, -⟩ := List.lookup_eq_some_iff.mp h
  simp

theorem legacyFinish_ok_mem (env : Env) (arch : LegacyArchive)
    (oldID : String) (img : legacyImg) (os : String) (pid : ImageID)
    (s1 s' : LegacyState)
    (h : legacyFinish env arch oldID img os pid s1 = .ok s') :
    (s'.loadedMap.lookup oldID).isSome = true := by
  simp only [legacyFinish] at h
  split at h
  · cases h
  · split at h
    · cases h
    · cases h
      simp [List.lookup]

theorem legacyFinish_ne_diverge (env : Env) (arch : LegacyArchive)
    (oldID : String) (img : legacyImg) (os : String) (pid : ImageID)
    (s1 : LegacyState) :
    legacyFinish env arch oldID img os pid s1 ≠ .diverge := by
  simp only [legacyFinish]
  split
  · simp
  · split <;> simp

theorem legacy_ok_mem (env : Env) (arch : LegacyArchive) (fuel : Nat)
    (oldID : String) (s s' : LegacyState)
    (h : legacyLoadImage env arch fuel oldID s = .ok s') :
    (s'.loadedMap.lookup oldID).isSome = true := by
  cases fuel with
  | zero => cases h
  | succ fuel =>
    simp only [legacyLoadImage] at h
    split at h
    · rename_i hsome
      cases h
      exact hsome
    · split at h
      · cases h
      · split at h
        · split at h
          · cases h
          · split at h
            · cases h
            · cases h
            · exact legacyFinish_ok_mem env arch oldID _ _ _ _ s' h
        · split at h
          · cases h
          · split at h
            · cases h
            · cases h
            · exact legacyFinish_ok_mem env arch oldID _ _ _ _ s' h

theorem legacy_fuel_sufficient (env : Env) (arch : LegacyArchive)
    (depth : String → Nat)
    (hd : ∀ e ∈ arch.entries, e.2.parent ≠ "" → depth e.2.parent < depth e.1) :
    ∀ (d : Nat) (id : String), depth id ≤ d → ∀ (s : LegacyState) (fuel : Nat),
      3 * d + 3 ≤ fuel → legacyLoadImage env arch fuel id s ≠ .diverge := by
  intro d
  induction d using Nat.strong_induction_on with
  | _ d ih =>
    intro id hid s fuel hfuel
    obtain ⟨f, rfl⟩ : ∃ f, fuel = f + 1 := ⟨fuel - 1, by omega⟩
    simp only [legacyLoadImage]
    split
    · simp
    · split
      · simp
      · rename_i img heqe
        have hpar : img.parent ≠ "" → depth img.parent < depth id := fun hpp =>
          hd (id, img) (lookup_mem heqe) hpp
        have hplp : img.parent ≠ "" →
            legacyParentLoop env arch f img.parent s ≠ .diverge := by
          intro hpp
          have hdp := hpar hpp
          obtain ⟨f1, rfl⟩ : ∃ f1, f = f1 + 1 := ⟨f - 1, by omega⟩
          simp only [legacyParentLoop]
          split
          · simp
          · have hrec : legacyLoadImage env arch f1 img.parent s ≠ .diverge :=
              ih (d - 1) (by omega) img.parent (by omega) s f1 (by omega)
            cases hres : legacyLoadImage env arch f1 img.parent s with
            | diverge => exact absurd hres hrec
            | err e s2 => simp
            | ok s2 =>
              have hm := legacy_ok_mem env arch f1 img.parent s s2 hres
              obtain ⟨f2, rfl⟩ : ∃ f2, f1 = f2 + 1 := ⟨f1 - 1, by omega⟩
              simp only [legacyParentLoop]
              obtain ⟨pid, hpid⟩ := Option.isSome_iff_exists.mp hm
              rw [hpid]
              simp
        split
        · split
          · simp
          · split
            · rename_i heqm
              by_cases hpp : img.parent = ""
              · rw [if_neg (by simp [hpp])] at heqm
                cases heqm
              · rw [if_pos (by simp [bne_iff_ne, hpp])] at heqm
                exact absurd heqm (hplp hpp)
            · simp
            · exact legacyFinish_ne_diverge env arch id img _ _ _
        · split
          · simp
          · split
            · rename_i heqm
              by_cases hpp : img.parent = ""
              · rw [if_neg (by simp [hpp])] at heqm
                cases heqm
              · rw [if_pos (by simp [bne_iff_ne, hpp])] at heqm
                exact absurd heqm (hplp hpp)
            · simp
            · exact legacyFinish_ne_diverge env arch id img _ _ _

/-- Claim C3 as amended: the recursive legacy image load terminates on every
archive whose parent references are acyclic (witnessed by a depth measure that
strictly decreases from child to parent); on a cyclic archive the memoization
map does not prevent infinite recursion (see the counterexample), because an
id enters the map only after its parent chain has fully loaded. -/
theorem legacyAcyclic_terminates (env : Env) (arch : LegacyArchive)
    (depth : String → Nat)
    (hd : ∀ e ∈ arch.entries, e.2.parent ≠ "" → depth e.2.parent < depth e.1)
    (oldID : String) (s : LegacyState) :
    legacyTerminates env arch oldID s :=
  ⟨3 * depth oldID + 3,
   legacy_fuel_sufficient env arch depth hd (depth oldID) oldID le_rfl s _
     le_rfl⟩

/-- An acyclic two-image legacy archive: `"b"`'s parent is `"a"`, `"a"` has
none. -/
def chainArchive : LegacyArchive :=
  ⟨["a", "b"],
   [("a", ⟨"linux", "", "ja", ⟨none, "", false⟩⟩),
    ("b", ⟨"linux", "a", "jb", ⟨none, "", false⟩⟩)],
   [("a", ⟨"d1"⟩), ("b", ⟨"d2"⟩)], []⟩

theorem legacyAcyclic_terminates_witness :
    legacyTerminates envLinux chainArchive "b" ⟨[], emptyState⟩ :=
  legacyAcyclic_terminates envLinux chainArchive
    (fun id => if id = "b" then 1 else 0) (by decide) "b" ⟨[], emptyState⟩
